import Mathlib

/-!
Verification of the blanket-rs resource-generation engine.

This file gives a shallow embedding, in Lean, of the core of the engine:

* the `Generator` of `src/lib.rs` together with the registration protocol of
  `src/registration.rs` (resource registry, recursive registration expansion
  with the `MAX_RECURSION` budget, the concrete-resource path table, and the
  dependency graph walk of `Generator::generate`);
* the filesystem cache `FsCache` of `src/cache.rs` (`set`/`get` over a
  modelled filesystem);
* the id-assigning `Manager` of `src/node.rs`.

Rust `HashMap`s are modelled as association lists with `mapInsert` replacing
an existing binding in place (`HashMap::insert` semantics); `Rc<RefCell<..>>`
object graphs are modelled by value, with a `Resource` represented as the
pair of its `id` and its object.  Trait objects implementing `Generate` are
modelled by `Obj`: the data every implementation in the repository closes
over is its registration output (a tree of `registration.rs` variants,
instantiated at the owning resource), plus a tag giving the object an
identity; the dynamically-dispatched `equals` method is an arbitrary boolean
function parameter `eqF`.  Closures (`DelayedRegistration`) are modelled by
the registration list they return; a closure's own `Err` outcome is not
modelled (every claim treated here concerns closures that return `Ok`).
The external `topologic::AcyclicDependencyGraph` is not part of this
repository; `dependOnEdges` and `topologicalLayers` model its documented
contract (edge insertion with cycle rejection, forward dependency
topological layers).
-/

namespace Blanket

/-! ### Association-list maps, modelling `std::collections::HashMap` -/

/-- Lookup in an association list, first binding wins (bindings are kept
unique by `mapInsert`, mirroring `HashMap::get`). -/
def mapGet {α β : Type} [DecidableEq α] (k : α) : List (α × β) → Option β
  | [] => none
  | (k', v) :: rest => if k' = k then some v else mapGet k rest

/-- Insertion mirroring `HashMap::insert`: replaces the binding in place when
the key is present, otherwise appends it. -/
def mapInsert {α β : Type} [DecidableEq α] (k : α) (v : β) : List (α × β) → List (α × β)
  | [] => [(k, v)]
  | (k', v') :: rest => if k' = k then (k, v) :: rest else (k', v') :: mapInsert k v rest

/-- Keys of an association list. -/
def keysOf {α β : Type} (m : List (α × β)) : List α := m.map (·.1)

/-! ### Registrations (`src/registration.rs`)

`Registration` is `Nonterminal(Delayed | DependUnique | DependShared)` or
`Terminal(Concrete | Virtual)`.  Every `Generate` implementation in the
repository produces its registrations from a closure over its own
`ResourceRef`, so a registration list is modelled as a template (`PreRegs`)
instantiated at the owning resource, which the expansion functions carry as
the `self` argument.  `dependUnique` carries the fresh sub-object (its tag
and its own registration template); `dependShared` carries the id of the
already-registered resource.  The mutual list type `PreRegs` stands for
`Vec<Registration>`. -/

mutual
inductive PreReg where
  | delayed (rs : PreRegs)
  | dependUnique (tag : Nat) (rs : PreRegs)
  | dependShared (sharedId : Nat)
  | concrete (p : String)
  | virtualReg
deriving DecidableEq
inductive PreRegs where
  | nil
  | cons (r : PreReg) (rs : PreRegs)
deriving DecidableEq
end

/-- An object implementing the `Generate` trait of `src/lib.rs`: `tag` is the
object's identity (distinguishing otherwise structurally equal objects) and
`regs` the registration list its `register()` closure returns, instantiated
at the owning resource. -/
structure Obj where
  tag : Nat
  regs : PreRegs
deriving DecidableEq

/-- A `Resource` of `src/lib.rs`: a unique `id` wrapping an object
(`Rc<RefCell<Resource>>` modelled by value). -/
abbrev Res := Nat × Obj

/-- Output path (`std::path::PathBuf` of the generator; only equality of
paths is used by the path table). -/
abbrev GPath := String

/-- Errors of the engine.  The source reports errors as boxed strings or as
`topologic` errors; each enum case stands for one of those messages:
`recursionLimit` for "Maximum recursion depth reached.", `cycle` for the
graph crate's cycle rejection, `pathCollision p` for "Concrete resource
already exists at path: p" (the message names the path), and
`unexpectedNonterminal` for "Encountered unexpected nonterminal registration
after expansion.". -/
inductive GenErr where
  | recursionLimit
  | cycle
  | pathCollision (p : GPath)
  | unexpectedNonterminal
deriving DecidableEq

/-- What the collected output list of expansion may contain
(`Vec<Registration>` in the source, so a nonterminal is representable):
`virtualOut`/`concreteOut` are `Terminal::Virtual(resource)` and
`Terminal::Concrete(resource, path)`, `nonterminalOut` stands for any
`Nonterminal` value. -/
inductive RegOut where
  | nonterminalOut
  | virtualOut (rid : Nat) (obj : Obj)
  | concreteOut (rid : Nat) (obj : Obj) (p : GPath)
deriving DecidableEq

/-- The maximum recursion depth for delayed registrations (`src/lib.rs`). -/
def MAX_RECURSION : Nat := 1024

/-- State of a `Generator` (`src/lib.rs`): pending top-level delayed
registrations (each the owning resource paired with its template), the
resource registry `resources`, the id counter `next_dependency_id`, the
concrete-resource path table, and the dependency graph's edge set
(an edge `(a, b)` records `depend_on(a, b)`: `a` must be generated after
`b`). -/
structure GenState where
  registrations : List Res
  resources : List (Nat × Obj)
  next_dependency_id : Nat
  concrete_resources : List (GPath × Res)
  edges : List (Nat × Nat)
deriving DecidableEq

/-- `Generator::new()`. -/
def Generator.new : GenState :=
  { registrations := []
    resources := []
    next_dependency_id := 0
    concrete_resources := []
    edges := [] }

/-- `Generator::create_resource_from_object_reference`: wrap the object in a
`Resource` carrying the next id, store it in the registry, and bump the
counter.  Returns the new state and the id of the created resource. -/
def create_resource_from_object_reference (st : GenState) (o : Obj) : GenState × Nat :=
  ({ st with
      resources := mapInsert st.next_dependency_id o st.resources
      next_dependency_id := st.next_dependency_id + 1 },
    st.next_dependency_id)

/-- `Generator::require`: create the resource and push its delayed
registration. -/
def Generator.require (st : GenState) (o : Obj) : GenState × Nat :=
  let (st1, rid) := create_resource_from_object_reference st o
  ({ st1 with registrations := st1.registrations ++ [(rid, o)] }, rid)

/-! ### The dependency graph

`topologic::AcyclicDependencyGraph<u64>` is an external crate; the spec
(section 4.4) documents its contract: `depend_on(from, to)` inserts a
directed edge and fails when the edge would close a cycle, and
`get_forward_dependency_topological_layers()` partitions the nodes of the
graph into layers with every node's dependencies in strictly earlier
layers.  The following definitions model that contract over an explicit
edge list. -/

/-- Dependency successors of a node: all `b` with an edge `(n, b)`. -/
def succs (edges : List (Nat × Nat)) (n : Nat) : List Nat :=
  (edges.filter (fun e => e.1 == n)).map (·.2)

/-- Fuel-bounded breadth-first reachability along dependency edges. -/
def reachableB (edges : List (Nat × Nat)) : Nat → List Nat → Nat → Bool
  | 0, frontier, target => frontier.contains target
  | f + 1, frontier, target =>
    frontier.contains target || reachableB edges f (frontier.flatMap (succs edges)) target

/-- Edge insertion into the edge set (sets do not duplicate edges). -/
def insertEdge (e : Nat × Nat) (edges : List (Nat × Nat)) : List (Nat × Nat) :=
  if edges.contains e then edges else edges ++ [e]

/-- Modelled from the spec: `depend_on(a, b)` of the external `topologic`
crate rejects an edge that would close a cycle (including a self-loop) and
otherwise inserts it. -/
def dependOnEdges (edges : List (Nat × Nat)) (a b : Nat) : Except GenErr (List (Nat × Nat)) :=
  if a == b || reachableB edges (edges.length + 1) [b] a then .error .cycle
  else .ok (insertEdge (a, b) edges)

/-- `Generator::add_dependency`: record in the graph that `rid` must be
generated after `did`. -/
def add_dependency (st : GenState) (rid did : Nat) : Except GenErr GenState :=
  match dependOnEdges st.edges rid did with
  | .error e => .error e
  | .ok es => .ok { st with edges := es }

/-! ### Registration expansion (`Generator::expand_registrations`)

`expand_registrations_recursive(recurse, generator, registrations)` checks
the budget on entry, decrements it, and walks the list: a
`Delayed` closure is invoked and its output expanded with the decremented
budget; `DependUnique(resource, object)` registers the object, expands the
new resource's registrations with the decremented budget, then adds the
edge `resource -> new`; `DependShared(resource, shared)` only adds the edge
`resource -> shared`; terminals are collected.  `expandOne f` below is the
nested call `expand_registrations_recursive(f, ..)` for a single
registration: its entry check `f = 0` and the walk at budget `f - 1` are
inlined; `expandList g` is the loop body at inner budget `g`. -/

mutual
def expandOne (f : Nat) (st : GenState) (self : Res) :
    PreReg → Except GenErr (GenState × List RegOut)
  | .delayed rs =>
    if f = 0 then .error .recursionLimit
    else expandList (f - 1) st self rs
  | .dependUnique tag rs =>
    let child : Obj := ⟨tag, rs⟩
    let (st1, uid) := create_resource_from_object_reference st child
    if f = 0 then .error .recursionLimit
    else
      match expandList (f - 1) st1 (uid, child) rs with
      | .error e => .error e
      | .ok (st2, out1) =>
        match add_dependency st2 self.1 uid with
        | .error e => .error e
        | .ok st3 => .ok (st3, out1)
  | .dependShared sid =>
    match add_dependency st self.1 sid with
    | .error e => .error e
    | .ok st1 => .ok (st1, [])
  | .concrete p => .ok (st, [.concreteOut self.1 self.2 p])
  | .virtualReg => .ok (st, [.virtualOut self.1 self.2])
def expandList (g : Nat) (st : GenState) (self : Res) :
    PreRegs → Except GenErr (GenState × List RegOut)
  | .nil => .ok (st, [])
  | .cons r rs =>
    match expandOne g st self r with
    | .error e => .error e
    | .ok (st1, out1) =>
      match expandList g st1 self rs with
      | .error e => .error e
      | .ok (st2, out2) => .ok (st2, out1 ++ out2)
end

/-- `Generator::expand_registrations`: run the recursive expansion with the
full `MAX_RECURSION` budget (entry check then walk at budget
`MAX_RECURSION - 1`). -/
def expand_registrations (st : GenState) (self : Res) (regs : PreRegs) :
    Except GenErr (GenState × List RegOut) :=
  if MAX_RECURSION = 0 then .error .recursionLimit
  else expandList (MAX_RECURSION - 1) st self regs

/-- `Generator::add_concrete_resource`: look up the path; when a claimant
exists and the incoming object's `equals` (the dispatched predicate `eqF`)
rejects it, fail with the collision error naming the path; otherwise insert
the incoming resource at the path (the source inserts unconditionally after
the check). -/
def add_concrete_resource (eqF : Obj → Obj → Bool) (st : GenState)
    (rid : Nat) (obj : Obj) (p : GPath) : Except GenErr GenState :=
  match mapGet p st.concrete_resources with
  | some existing =>
    if ! eqF obj existing.2 then .error (.pathCollision p)
    else .ok { st with concrete_resources := mapInsert p (rid, obj) st.concrete_resources }
  | none => .ok { st with concrete_resources := mapInsert p (rid, obj) st.concrete_resources }

/-- First phase of `Generator::generate`: pop every pending delayed
registration (the source pops from the end of the vector, so the caller
passes the reversed list), expand it with a fresh budget, and collect the
terminals in pop order. -/
def drainLoop : List Res → GenState → Except GenErr (GenState × List RegOut)
  | [], st => .ok (st, [])
  | self :: rest, st =>
    match expand_registrations st self self.2.regs with
    | .error e => .error e
    | .ok (st1, out1) =>
      match drainLoop rest st1 with
      | .error e => .error e
      | .ok (st2, out2) => .ok (st2, out1 ++ out2)

/-- Second phase of `Generator::generate`: walk the collected list; a
leftover nonterminal is reported as an error, a `Virtual` terminal does
nothing, a `Concrete` terminal is registered in the path table. -/
def registerConcretes (eqF : Obj → Obj → Bool) :
    List RegOut → GenState → Except GenErr GenState
  | [], st => .ok st
  | .nonterminalOut :: _, _ => .error .unexpectedNonterminal
  | .virtualOut _ _ :: rest, st => registerConcretes eqF rest st
  | .concreteOut rid obj p :: rest, st =>
    match add_concrete_resource eqF st rid obj p with
    | .error e => .error e
    | .ok st1 => registerConcretes eqF rest st1

/-- One round of the modelled layering: nodes whose dependencies have all
been emitted form the next layer. -/
def layersGo (edges : List (Nat × Nat)) : Nat → List Nat → List Nat → List (List Nat)
  | 0, _, _ => []
  | f + 1, remaining, done =>
    let ready := remaining.filter (fun n => (succs edges n).all (fun d => done.contains d))
    if ready.isEmpty then []
    else ready :: layersGo edges f (remaining.filter (fun n => ! ready.contains n)) (done ++ ready)

/-- Nodes of the dependency graph: every endpoint of an edge (the external
graph learns of a node when an edge touching it is inserted). -/
def nodesOf (edges : List (Nat × Nat)) : List Nat :=
  (edges.flatMap (fun e => [e.1, e.2])).dedup

/-- Modelled from the spec:
`get_forward_dependency_topological_layers()` of the external `topologic`
crate — partition the graph's nodes into layers with every node's
dependencies in strictly earlier layers. -/
def topologicalLayers (edges : List (Nat × Nat)) : List (List Nat) :=
  layersGo edges ((nodesOf edges).length + 1) (nodesOf edges) []

/-- `Generator::generate`: expand all pending registrations (popping from
the end), register the concrete resources, then invoke `generate()` on
every node of the dependency graph layer by layer and finally on every
entry of the concrete-resource table.  The returned trace lists the
resource ids in invocation order (each object's `generate()` effect is
modelled as succeeding; iteration order over the concrete `HashMap` is
modelled as insertion order).  -/
def Generator.generate (eqF : Obj → Obj → Bool) (st : GenState) :
    Except GenErr (GenState × List Nat) :=
  match drainLoop st.registrations.reverse { st with registrations := [] } with
  | .error e => .error e
  | .ok (st1, terms) =>
    match registerConcretes eqF terms st1 with
    | .error e => .error e
    | .ok st2 =>
      .ok (st2, (topologicalLayers st2.edges).flatten
                  ++ st2.concrete_resources.map (fun e => e.2.1))

/-! ### Depth of a registration tree (for the recursion-budget claim) -/

mutual
/-- Nesting contributed by one registration: a `Delayed` closure or a
`DependUnique` sub-object costs one nested expansion call plus the nesting
of its own list. -/
def depthOne : PreReg → Nat
  | .delayed rs => 1 + depthList rs
  | .dependUnique _ rs => 1 + depthList rs
  | .dependShared _ => 0
  | .concrete _ => 0
  | .virtualReg => 0
/-- Nesting of a registration list: the maximum over its entries. -/
def depthList : PreRegs → Nat
  | .nil => 0
  | .cons r rs => max (depthOne r) (depthList rs)
end

/-- Number of expansion invocations along the deepest chain of a
registration list, counting the initial `expand_registrations` call
itself. -/
def nestingDepth (regs : PreRegs) : Nat := depthList regs + 1

mutual
/-- A declaration chain: registrations built only from `Delayed` closures
and terminals (no `DependUnique`/`DependShared`, so no graph edges). -/
def declOnlyOne : PreReg → Bool
  | .delayed rs => declOnlyList rs
  | .dependUnique _ _ => false
  | .dependShared _ => false
  | .concrete _ => true
  | .virtualReg => true
/-- Pointwise `declOnlyOne` over a registration list. -/
def declOnlyList : PreRegs → Bool
  | .nil => true
  | .cons r rs => declOnlyOne r && declOnlyList rs
end

/-- Predicate on expansion output: the entry is a terminal registration. -/
def isTerminalOut : RegOut → Bool
  | .nonterminalOut => false
  | .virtualOut _ _ => true
  | .concreteOut _ _ _ => true

/-! ### The registry `Manager` of `src/node.rs` -/

/-- State of `node::Manager`: the id counter and the id-to-node map. -/
structure Manager where
  next_id : Nat
  map : List (Nat × Obj)
deriving DecidableEq

/-- `Manager::new()`. -/
def Manager.new : Manager := { next_id := 0, map := [] }

/-- `Manager::add_reference`: wrap the object in a node carrying `next_id`,
insert it, bump the counter; returns the new state and the assigned id. -/
def Manager.add_reference (m : Manager) (o : Obj) : Manager × Nat :=
  ({ next_id := m.next_id + 1, map := mapInsert m.next_id o m.map }, m.next_id)

/-- Register a list of objects in sequence with the `Generator` registry,
returning the final state and the assigned ids in order. -/
def createAll (st : GenState) : List Obj → GenState × List Nat
  | [] => (st, [])
  | o :: os =>
    let (st1, i) := create_resource_from_object_reference st o
    let (st2, is) := createAll st1 os
    (st2, i :: is)

/-! ### Concrete example inputs used by witnesses and counterexamples -/

/-- Example object: registers a fresh sub-object (`DependUnique`) and claims
the concrete path `out`. -/
def exDependent : Obj := ⟨0, .cons (.dependUnique 1 .nil) (.cons (.concrete "out") .nil)⟩

/-- Example build: a generator holding the single requirement
`exDependent`. -/
def exStart : GenState := (Generator.require Generator.new exDependent).1

/-- Example object of tag 0 with no registrations. -/
def exObjA : Obj := ⟨0, .nil⟩

/-- Example object of tag 1 with no registrations. -/
def exObjB : Obj := ⟨1, .nil⟩

/-- Example state whose path table maps `p` to the resource `(0, exObjA)`. -/
def exTable : GenState := { Generator.new with concrete_resources := [("p", (0, exObjA))] }

end Blanket

namespace RootSpec

open Blanket

/-!
Root-sentinel engine variant.  The spec describes a `RequireRoot`
registration and a root sentinel node of id 0 created with the generator;
no engine under `src/` implements them (the `Root` resources of
`src/root.rs` and `src/resource/root.rs` are ordinary resources), so this
variant is modelled from the spec alone.
-/

/-- Modelled from the spec: the object of the root sentinel; it registers
no requirement (per the spec the sentinel has no dependencies). -/
def rootObj : Obj := ⟨0, .nil⟩

/-- Modelled from the spec: state of the root-sentinel generator variant:
registry, id counter and dependency edges. -/
structure RGen where
  resources : List (Nat × Obj)
  next_id : Nat
  edges : List (Nat × Nat)
deriving DecidableEq

/-- Modelled from the spec: creating the generator installs the root
sentinel under id 0 before any user registration, so the counter starts
handing out ids at 1. -/
def RGen.new : RGen :=
  { resources := [(0, rootObj)], next_id := 1, edges := [] }

/-- Modelled from the spec: register a user object, assigning the next
unused id. -/
def RGen.register (st : RGen) (o : Obj) : RGen × Nat :=
  ({ st with resources := mapInsert st.next_id o st.resources, next_id := st.next_id + 1 },
    st.next_id)

/-- Modelled from the spec: a `RequireRoot` registration emitted by the
resource `selfId` adds the edge `selfId -> 0` to the dependency graph. -/
def RGen.requireRoot (st : RGen) (selfId : Nat) : Except GenErr RGen :=
  match dependOnEdges st.edges selfId 0 with
  | .error e => .error e
  | .ok es => .ok { st with edges := es }

/-- Modelled from the spec: nodes of a build are all registered ids together
with every edge endpoint. -/
def RGen.allNodes (st : RGen) : List Nat :=
  (keysOf st.resources ++ nodesOf st.edges).dedup

/-- Modelled from the spec: the topological layering of a build partitions
all of that build's nodes (not only edge endpoints) into layers with every
dependency in a strictly earlier layer. -/
def RGen.layers (st : RGen) : List (List Nat) :=
  layersGo st.edges (st.allNodes.length + 1) st.allNodes []

end RootSpec

namespace Cache

open Blanket

/-!
The filesystem cache of `src/cache.rs`.

A path is its list of components (`PathBuf::join` is list append).  The
filesystem is an association list from paths to file states; a file is
`readable` with some content or `unreadable` (a `std::fs` read error).
Contents of hash files are modelled as either a printed hash
(`hashContent h`, the `hash.to_string()` the cache writes; `to_string`
followed by `parse` round-trips a `blake3::Hash`) or `garbage` (text that
`parse` rejects).  Directories need no representation: `create_dir_all`
always succeeds along a path, and every filesystem entry is a file.
`walkdir` enumerates the files under a directory, here: the keys of the
filesystem map having the directory as a proper prefix, in map order.
Hash values themselves are abstracted to `Nat`.
-/

/-- A filesystem path as its list of components. -/
abbrev CPath := List String

/-- Content of a cache record file: a printed hash or unparseable text. -/
inductive Content where
  | hashContent (h : Nat)
  | garbage
deriving DecidableEq

/-- A file of the modelled filesystem. -/
inductive FileState where
  | readable (c : Content)
  | unreadable
deriving DecidableEq

/-- The modelled filesystem. -/
abbrev CFs := List (CPath × FileState)

/-- The extension-appending component transformation of `append_ext_hash`:
`set_extension` with `old_ext.blake3` (or `blake3` when the component has no
extension) appends `.blake3` to the component. -/
def extB3 (c : String) : String := c ++ ".blake3"

/-- `append_ext_hash`: append the hash extension to the final component of
the path. -/
def appendExtHash : CPath → CPath
  | [] => []
  | [c] => [extB3 c]
  | c :: rest => c :: appendExtHash rest

/-- `FsCache::target_location`: `cache_path/key/target.blake3`. -/
def target_location (cache key : CPath) : CPath :=
  appendExtHash (cache ++ key ++ ["target"])

/-- `FsCache::dep_dir`: `cache_path/key/inputs`. -/
def dep_dir (cache key : CPath) : CPath := cache ++ key ++ ["inputs"]

/-- `FsCache::dep_location`: `cache_path/key/inputs/dep` with the hash
extension appended. -/
def dep_location (cache key dep : CPath) : CPath :=
  appendExtHash (dep_dir cache key ++ dep)

/-- Second half of `FsCache::set`: persist the hash of every dependency at
its location (loop order is the map's iteration order, the list order
here). -/
def setDeps (cache key : CPath) : List (CPath × Nat) → CFs → CFs
  | [], fs => fs
  | (d, hd) :: rest, fs =>
    setDeps cache key rest (mapInsert (dep_location cache key d) (.readable (.hashContent hd)) fs)

/-- `FsCache::set`: write the target's hash at its location, then the hash
of every dependency (a failed `std::fs` write panics in the source via
`expect`, so `set` has no error return; writes are modelled as
succeeding). -/
def FsCache.set (cache : CPath) (fs : CFs) (key : CPath) (h : Nat)
    (deps : List (CPath × Nat)) : CFs :=
  setDeps cache key deps
    (mapInsert (target_location cache key) (.readable (.hashContent h)) fs)

/-- Test of the `walkdir` filter of `FsCache::get` on a file name:
`extension() == "blake3"`, i.e. the name ends in `.blake3` with a nonempty
stem. -/
def hasB3Ext (c : String) : Bool :=
  ".blake3".data.isSuffixOf c.data && decide (7 < c.data.length)

/-- The `walkdir` filter of `FsCache::get` on a path: a file under the
dependency directory whose final component carries the hash extension. -/
def isDepFile (cache key : CPath) (p : CPath) : Bool :=
  (dep_dir cache key).isPrefixOf p && decide ((dep_dir cache key).length < p.length)
    && (match p.getLast? with
        | some c => hasB3Ext c
        | none => false)

/-- The `with_extension("")` transformation on a component that carries the
hash extension: drop the trailing `.blake3`. -/
def dropB3 (c : String) : String := ⟨c.data.take (c.data.length - 7)⟩

/-- Drop the hash extension from the final component of a path. -/
def stripExtHash : CPath → CPath
  | [] => []
  | [c] => [dropB3 c]
  | c :: rest => c :: stripExtHash rest

/-- `FsCache::get_dep_from_location` followed by `with_extension("")`:
recover the dependency path from its hash-file location. -/
def depFromLocation (cache key p : CPath) : CPath :=
  stripExtHash (p.drop (dep_dir cache key).length)

/-- The dependency-reading loop of `FsCache::get`: read and parse every
hash file found by the walk; a read error or parse failure aborts the whole
`get` with `None` (the source's `.ok()?`). -/
def readDeps (cache key : CPath) (fs : CFs) : List CPath → Option (List (CPath × Nat))
  | [] => some []
  | p :: rest =>
    match mapGet p fs with
    | some (.readable (.hashContent hd)) =>
      match readDeps cache key fs rest with
      | some l => some ((depFromLocation cache key p, hd) :: l)
      | none => none
    | _ => none

/-- `FsCache::get`: read and parse the target's hash file (a missing file,
a read error, or unparseable text each yield `None` through `.ok()?`), then
walk the dependency directory and read every recorded dependency hash. -/
def FsCache.get (cache : CPath) (fs : CFs) (key : CPath) :
    Option (Nat × List (CPath × Nat)) :=
  match mapGet (target_location cache key) fs with
  | some (.readable (.hashContent h)) =>
    match readDeps cache key fs ((fs.map (·.1)).filter (isDepFile cache key)) with
    | some deps => some (h, deps)
    | none => none
  | _ => none

/-- Wellformedness of a dependency path as a cache key: nonempty, with a
nonempty final component (so that its hash file carries a proper `.blake3`
extension and survives the walk filter). -/
def depWF (d : CPath) : Bool :=
  match d.getLast? with
  | some c => !c.data.isEmpty
  | none => false

end Cache


namespace Blanket

/-! ### Lemmas on association-list maps -/

theorem mapGet_insert_self {α β : Type} [DecidableEq α] (k : α) (v : β) (m : List (α × β)) :
    mapGet k (mapInsert k v m) = some v := by
  induction m with
  | nil => simp [mapGet, mapInsert]
  | cons e m ih =>
    obtain ⟨a, b⟩ := e
    by_cases h : a = k
    · simp [mapInsert, h, mapGet]
    · simp [mapInsert, h, mapGet, ih]

theorem mapGet_insert_ne {α β : Type} [DecidableEq α] {q k : α} (v : β) (m : List (α × β))
    (h : q ≠ k) : mapGet q (mapInsert k v m) = mapGet q m := by
  induction m with
  | nil => simp [mapGet, mapInsert, Ne.symm h]
  | cons e m ih =>
    obtain ⟨a, b⟩ := e
    by_cases ha : a = k
    · have haq : a ≠ q := by
        rw [ha]
        exact Ne.symm h
      simp [mapInsert, ha, mapGet, Ne.symm h, haq]
    · by_cases haq : a = q
      · subst haq
        simp [mapInsert, ha, mapGet]
      · simp [mapInsert, ha, mapGet, haq, ih]

theorem mapGet_some_mem {α β : Type} [DecidableEq α] {k : α} {v : β} {m : List (α × β)}
    (h : mapGet k m = some v) : k ∈ keysOf m := by
  induction m with
  | nil => simp [mapGet] at h
  | cons e m ih =>
    obtain ⟨a, b⟩ := e
    by_cases ha : a = k
    · simp [keysOf, ha]
    · rw [mapGet] at h
      simp only [ha, if_false] at h
      exact List.mem_cons_of_mem _ (ih h)

theorem keysOf_insert_of_mem {α β : Type} [DecidableEq α] {k : α} (v : β) {m : List (α × β)}
    (h : k ∈ keysOf m) : keysOf (mapInsert k v m) = keysOf m := by
  induction m with
  | nil => simp [keysOf] at h
  | cons e m ih =>
    obtain ⟨a, b⟩ := e
    by_cases ha : a = k
    · simp [mapInsert, ha, keysOf]
    · have hm : k ∈ keysOf m := by
        rcases List.mem_cons.mp h with h0 | h0
        · exact absurd h0.symm ha
        · exact h0
      simp [mapInsert, ha, keysOf]
      simpa [keysOf] using ih hm

theorem keysOf_insert_of_not_mem {α β : Type} [DecidableEq α] {k : α} (v : β) {m : List (α × β)}
    (h : k ∉ keysOf m) : keysOf (mapInsert k v m) = keysOf m ++ [k] := by
  induction m with
  | nil => simp [mapInsert, keysOf]
  | cons e m ih =>
    obtain ⟨a, b⟩ := e
    have ha : a ≠ k := fun hh => h (by simp [keysOf, hh])
    have hm : k ∉ keysOf m := fun hh => h (List.mem_cons_of_mem _ hh)
    simp [mapInsert, ha, keysOf]
    simpa [keysOf] using ih hm

theorem nodup_keysOf_insert {α β : Type} [DecidableEq α] {k : α} (v : β) {m : List (α × β)}
    (h : (keysOf m).Nodup) : (keysOf (mapInsert k v m)).Nodup := by
  by_cases hm : k ∈ keysOf m
  · rw [keysOf_insert_of_mem v hm]
    exact h
  · rw [keysOf_insert_of_not_mem v hm]
    simp [List.nodup_append, h, hm]

/-! ### The registry: id assignment (C5) -/

theorem createAll_cons_fst (st : GenState) (o : Obj) (os : List Obj) :
    (createAll st (o :: os)).1 = (createAll (create_resource_from_object_reference st o).1 os).1 :=
  rfl

theorem createAll_cons_snd (st : GenState) (o : Obj) (os : List Obj) :
    (createAll st (o :: os)).2
      = st.next_dependency_id :: (createAll (create_resource_from_object_reference st o).1 os).2 :=
  rfl

theorem createAll_general (os : List Obj) : ∀ st : GenState,
    (∀ k, st.next_dependency_id ≤ k → mapGet k st.resources = none) →
    (createAll st os).2 = List.range' st.next_dependency_id os.length ∧
    (createAll st os).1.next_dependency_id = st.next_dependency_id + os.length ∧
    (∀ k, k < st.next_dependency_id →
      mapGet k (createAll st os).1.resources = mapGet k st.resources) ∧
    (∀ i, mapGet (st.next_dependency_id + i) (createAll st os).1.resources = os[i]?) := by
  induction os with
  | nil =>
    intro st hk
    refine ⟨rfl, rfl, fun k _ => rfl, fun i => ?_⟩
    simp [createAll, hk (st.next_dependency_id + i) (Nat.le_add_right _ _)]
  | cons o os ih =>
    intro st hk
    have hN : (create_resource_from_object_reference st o).1.next_dependency_id
        = st.next_dependency_id + 1 := rfl
    have hR : (create_resource_from_object_reference st o).1.resources
        = mapInsert st.next_dependency_id o st.resources := rfl
    have hk1 : ∀ k,
        (create_resource_from_object_reference st o).1.next_dependency_id ≤ k →
        mapGet k (create_resource_from_object_reference st o).1.resources = none := by
      intro k hkk
      rw [hN] at hkk
      rw [hR, mapGet_insert_ne _ _ (by omega)]
      exact hk k (by omega)
    obtain ⟨h1, h2, h3, h4⟩ := ih (create_resource_from_object_reference st o).1 hk1
    rw [hN] at h2 h3 h4
    refine ⟨?_, ?_, ?_, ?_⟩
    · rw [createAll_cons_snd, h1, hN, List.length_cons, List.range'_succ]
    · rw [createAll_cons_fst, h2, List.length_cons]
      omega
    · intro k hkn
      rw [createAll_cons_fst, h3 k (by omega), hR, mapGet_insert_ne _ _ (by omega)]
    · intro i
      rw [createAll_cons_fst]
      match i with
      | 0 =>
        rw [h3 (st.next_dependency_id + 0) (by omega), hR]
        simpa using mapGet_insert_self st.next_dependency_id o st.resources
      | i + 1 =>
        have harith : st.next_dependency_id + (i + 1) = (st.next_dependency_id + 1) + i := by
          omega
        rw [harith, h4 i]
        simp

/-- C5: the registry assigns ids from a monotonic `u64` counter starting at
0.  First conjunct: registering a list of objects with a fresh `Generator`
yields exactly the ids `0, 1, 2, ...` in order, and afterwards every id
still maps to the object it was assigned to (so an id, once assigned, is
never reassigned by later registrations).  Second and third conjuncts
(`Generator::create_resource_from_object_reference` of `src/lib.rs` and
`Manager::add_reference` of `src/node.rs`): each registration returns the
current counter value, bumps the counter by exactly one, and leaves every
other id's binding untouched — the counter is never rewound, so an id stays
consumed even when the build later rejects a resource. -/
theorem C5_registry_monotonic_ids :
    (∀ os : List Obj,
      (createAll Generator.new os).2 = List.range os.length ∧
      ∀ i : Nat, mapGet i (createAll Generator.new os).1.resources = os[i]?) ∧
    (∀ (st : GenState) (o : Obj),
      (create_resource_from_object_reference st o).2 = st.next_dependency_id ∧
      (create_resource_from_object_reference st o).1.next_dependency_id
        = st.next_dependency_id + 1 ∧
      ∀ k, k ≠ st.next_dependency_id →
        mapGet k (create_resource_from_object_reference st o).1.resources
          = mapGet k st.resources) ∧
    (∀ (m : Manager) (o : Obj),
      (Manager.add_reference m o).2 = m.next_id ∧
      (Manager.add_reference m o).1.next_id = m.next_id + 1 ∧
      ∀ k, k ≠ m.next_id → mapGet k (Manager.add_reference m o).1.map = mapGet k m.map) := by
  refine ⟨?_, ?_, ?_⟩
  · intro os
    obtain ⟨h1, _, _, h4⟩ := createAll_general os Generator.new (fun k _ => rfl)
    constructor
    · rw [h1, List.range_eq_range']
      rfl
    · intro i
      simpa [Generator.new] using h4 i
  · intro st o
    exact ⟨rfl, rfl, fun k hk => mapGet_insert_ne _ _ hk⟩
  · intro m o
    exact ⟨rfl, rfl, fun k hk => mapGet_insert_ne _ _ hk⟩

theorem C5_registry_monotonic_ids_witness :
    (createAll Generator.new [exObjA, exObjB]).2 = List.range 2 ∧
    mapGet 0 (createAll Generator.new [exObjA, exObjB]).1.resources = some exObjA ∧
    mapGet 7 (create_resource_from_object_reference Generator.new exObjA).1.resources
      = mapGet 7 Generator.new.resources ∧
    mapGet 9 (Manager.add_reference Manager.new exObjA).1.map = mapGet 9 Manager.new.map := by
  refine ⟨(C5_registry_monotonic_ids.1 [exObjA, exObjB]).1, ?_, ?_, ?_⟩
  · have h := (C5_registry_monotonic_ids.1 [exObjA, exObjB]).2 0
    simpa using h
  · exact (C5_registry_monotonic_ids.2.1 Generator.new exObjA).2.2 7 (by decide)
  · exact (C5_registry_monotonic_ids.2.2 Manager.new exObjA).2.2 9 (by decide)

/-! ### The path table (C2, C3) -/

/-- C3: a claim on an occupied path whose incoming resource the equality
predicate rejects fails with the collision error naming that path — the
source returns this error before the insertion runs, so the failed claim
performs no table mutation — and every successful claim preserves the
table's key uniqueness, so at most one entry per path always holds. -/
theorem C3_path_collision_rejected :
    (∀ (eqF : Obj → Obj → Bool) (st : GenState) (rid : Nat) (obj : Obj) (p : GPath)
        (ex : Res),
      mapGet p st.concrete_resources = some ex → eqF obj ex.2 = false →
      add_concrete_resource eqF st rid obj p = .error (.pathCollision p)) ∧
    (∀ (eqF : Obj → Obj → Bool) (st : GenState) (rid : Nat) (obj : Obj) (p : GPath)
        (st' : GenState),
      (keysOf st.concrete_resources).Nodup →
      add_concrete_resource eqF st rid obj p = .ok st' →
      (keysOf st'.concrete_resources).Nodup) := by
  constructor
  · intro eqF st rid obj p ex h1 h2
    simp [add_concrete_resource, h1, h2]
  · intro eqF st rid obj p st' hnd hok
    match hmg : mapGet p st.concrete_resources with
    | some ex =>
      rw [add_concrete_resource, hmg] at hok
      by_cases he : eqF obj ex.2
      · simp [he] at hok
        rw [← hok]
        exact nodup_keysOf_insert _ hnd
      · simp [he] at hok
    | none =>
      rw [add_concrete_resource, hmg] at hok
      simp at hok
      rw [← hok]
      exact nodup_keysOf_insert _ hnd

theorem C3_path_collision_rejected_witness :
    add_concrete_resource (fun _ _ => false) exTable 1 exObjB "p"
      = .error (.pathCollision "p") ∧
    (keysOf ({ Generator.new with
        concrete_resources := [("p", (0, exObjA)), ("q", (1, exObjB))] }
          : GenState).concrete_resources).Nodup := by
  constructor
  · exact C3_path_collision_rejected.1 (fun _ _ => false) exTable 1 exObjB "p" (0, exObjA)
      rfl rfl
  · exact C3_path_collision_rejected.2 (fun _ _ => false) exTable 1 exObjB "q" _
      (by decide) rfl

/-- C2 counterexample: with the table mapping `p` to the resource
`(0, exObjA)` and an equality predicate accepting everything, claiming `p`
for the incoming resource `(1, exObjB)` succeeds — but the table entry now
maps to the incoming resource, not to the original claimant: the source
runs `insert` unconditionally after the equality check, replacing the
stored value.  The claim's assertion that the table is not modified and
still maps the path to the original claimant is false. -/
theorem C2_counterexample :
    (add_concrete_resource (fun _ _ => true) exTable 1 exObjB "p").toOption.map
        (fun s => mapGet "p" s.concrete_resources) = some (some (1, exObjB)) ∧
    decide (some ((1 : Nat), exObjB) = some ((0 : Nat), exObjA)) = false := by
  exact ⟨rfl, by decide⟩

/-- C2 (amended): when a path already has a claimant and the equality
predicate reports the incoming resource equal to it, the claim succeeds and
the table keeps exactly one entry for that path and is untouched at every
other path — but the entry is overwritten to map to the *incoming*
resource (the original claimant is replaced, because
`Generator::add_concrete_resource` inserts unconditionally after the
check). -/
theorem C2_equal_claim_replaces_entry :
    ∀ (eqF : Obj → Obj → Bool) (st : GenState) (rid : Nat) (obj : Obj) (p : GPath)
      (ex : Res),
      mapGet p st.concrete_resources = some ex → eqF obj ex.2 = true →
      add_concrete_resource eqF st rid obj p
        = .ok { st with concrete_resources := mapInsert p (rid, obj) st.concrete_resources } ∧
      mapGet p (mapInsert p (rid, obj) st.concrete_resources) = some (rid, obj) ∧
      keysOf (mapInsert p (rid, obj) st.concrete_resources) = keysOf st.concrete_resources ∧
      ∀ q, q ≠ p →
        mapGet q (mapInsert p (rid, obj) st.concrete_resources)
          = mapGet q st.concrete_resources := by
  intro eqF st rid obj p ex h1 h2
  refine ⟨by simp [add_concrete_resource, h1, h2], mapGet_insert_self _ _ _, ?_, ?_⟩
  · exact keysOf_insert_of_mem _ (mapGet_some_mem h1)
  · intro q hq
    exact mapGet_insert_ne _ _ hq

theorem C2_equal_claim_replaces_entry_witness :
    add_concrete_resource (fun _ _ => true) exTable 1 exObjB "p"
      = .ok { exTable with
          concrete_resources := mapInsert "p" (1, exObjB) exTable.concrete_resources } ∧
    mapGet "p" (mapInsert "p" (1, exObjB) exTable.concrete_resources) = some (1, exObjB) ∧
    keysOf (mapInsert "p" (1, exObjB) exTable.concrete_resources)
      = keysOf exTable.concrete_resources ∧
    mapGet "z" (mapInsert "p" (1, exObjB) exTable.concrete_resources)
      = mapGet "z" exTable.concrete_resources := by
  obtain ⟨h1, h2, h3, h4⟩ := C2_equal_claim_replaces_entry (fun _ _ => true) exTable 1 exObjB
    "p" (0, exObjA) rfl rfl
  exact ⟨h1, h2, h3, h4 "z" (by decide)⟩

/-! ### Shared-dependency expansion (C8) -/

/-- C8: expanding a `DependShared` registration only adds a dependency edge:
the registry (`resources` and the id counter), the path table and the
pending registrations are all untouched, no terminal is collected (the
referenced node is not re-expanded), and the edge set gains exactly the
edge from the registering resource to the shared node.  In particular the
registry's size after a second shared reference to an already-registered
node equals its size after the first. -/
theorem C8_shared_dependency_frame :
    ∀ (f : Nat) (st : GenState) (self : Res) (sid : Nat) (st' : GenState)
      (out : List RegOut),
      expandOne f st self (.dependShared sid) = .ok (st', out) →
      st'.resources = st.resources ∧
      st'.next_dependency_id = st.next_dependency_id ∧
      st'.concrete_resources = st.concrete_resources ∧
      st'.registrations = st.registrations ∧
      out = [] ∧
      st'.edges = insertEdge (self.1, sid) st.edges := by
  intro f st self sid st' out h
  rw [expandOne] at h
  match hdep : add_dependency st self.1 sid with
  | .error e =>
    rw [hdep] at h
    exact absurd h (by simp)
  | .ok st1 =>
    rw [hdep] at h
    simp at h
    rw [add_dependency] at hdep
    match hedges : dependOnEdges st.edges self.1 sid with
    | .error e =>
      rw [hedges] at hdep
      exact absurd hdep (by simp)
    | .ok es =>
      rw [hedges] at hdep
      simp at hdep
      rw [dependOnEdges] at hedges
      by_cases hc : (self.1 == sid || reachableB st.edges (st.edges.length + 1) [sid] self.1)
      · simp [hc] at hedges
      · simp [hc] at hedges
        rw [← h.1, ← hdep, ← hedges]
        exact ⟨rfl, rfl, rfl, rfl, h.2, rfl⟩

theorem C8_shared_dependency_frame_witness :
    ({ Generator.new with edges := insertEdge (0, 1) Generator.new.edges }
        : GenState).resources = Generator.new.resources ∧
    ({ Generator.new with edges := insertEdge (0, 1) Generator.new.edges }
        : GenState).next_dependency_id = Generator.new.next_dependency_id ∧
    ([] : List RegOut) = [] ∧
    ({ Generator.new with edges := insertEdge (0, 1) Generator.new.edges }
        : GenState).edges = insertEdge ((0, exObjA).1, 1) Generator.new.edges := by
  obtain ⟨h1, h2, h3, h4, h5, h6⟩ := C8_shared_dependency_frame 5 Generator.new (0, exObjA) 1
    { Generator.new with edges := insertEdge (0, 1) Generator.new.edges } [] rfl
  exact ⟨h1, h2, h5, h6⟩
/-! ### The recursion budget (C4) -/

mutual
theorem expandOne_declOnly (r : PreReg) : ∀ (f : Nat) (st : GenState) (self : Res),
    declOnlyOne r = true →
    (f < depthOne r → expandOne f st self r = .error .recursionLimit) ∧
    (depthOne r ≤ f → ∃ out, expandOne f st self r = .ok (st, out)) := by
  match r with
  | .delayed rs =>
    intro f st self h
    rw [declOnlyOne] at h
    constructor
    · intro hf
      by_cases hf0 : f = 0
      · simp [expandOne, hf0]
      · rw [depthOne] at hf
        have h2 := (expandList_declOnly rs (f - 1) st self h).1 (by omega)
        simp [expandOne, hf0, h2]
    · intro hf
      rw [depthOne] at hf
      have hf0 : ¬ f = 0 := by omega
      obtain ⟨out, hout⟩ := (expandList_declOnly rs (f - 1) st self h).2 (by omega)
      exact ⟨out, by simp [expandOne, hf0, hout]⟩
  | .dependUnique tag rs =>
    intro f st self h
    rw [declOnlyOne] at h
    exact absurd h (by simp)
  | .dependShared sid =>
    intro f st self h
    rw [declOnlyOne] at h
    exact absurd h (by simp)
  | .concrete p =>
    intro f st self _
    refine ⟨fun hf => absurd hf (by rw [depthOne]; omega), fun _ => ⟨_, rfl⟩⟩
  | .virtualReg =>
    intro f st self _
    refine ⟨fun hf => absurd hf (by rw [depthOne]; omega), fun _ => ⟨_, rfl⟩⟩
theorem expandList_declOnly (rs : PreRegs) : ∀ (g : Nat) (st : GenState) (self : Res),
    declOnlyList rs = true →
    (g < depthList rs → expandList g st self rs = .error .recursionLimit) ∧
    (depthList rs ≤ g → ∃ out, expandList g st self rs = .ok (st, out)) := by
  match rs with
  | .nil =>
    intro g st self _
    refine ⟨fun hg => absurd hg (by rw [depthList]; omega), fun _ => ⟨[], rfl⟩⟩
  | .cons r rs =>
    intro g st self h
    rw [declOnlyList, Bool.and_eq_true] at h
    obtain ⟨hr, hrs⟩ := h
    constructor
    · intro hg
      rw [depthList] at hg
      by_cases h1 : g < depthOne r
      · have e1 := (expandOne_declOnly r g st self hr).1 h1
        simp [expandList, e1]
      · obtain ⟨out1, e1⟩ := (expandOne_declOnly r g st self hr).2 (by omega)
        have h2 : g < depthList rs := by
          rcases lt_max_iff.mp hg with hc | hc
          · exact absurd hc h1
          · exact hc
        have e2 := (expandList_declOnly rs g st self hrs).1 h2
        simp [expandList, e1, e2]
    · intro hg
      rw [depthList, Nat.max_le] at hg
      obtain ⟨out1, e1⟩ := (expandOne_declOnly r g st self hr).2 hg.1
      obtain ⟨out2, e2⟩ := (expandList_declOnly rs g st self hrs).2 hg.2
      exact ⟨out1 ++ out2, by simp [expandList, e1, e2]⟩
end

/-- C4: for registration lists built only of `Delayed` closures and
terminals (declaration chains — the subject of the recursion guard), the
expansion `Generator::expand_registrations` fails, and fails precisely with
the recursion-limit error, exactly when the chain requires more nested
expansion invocations than the budget `MAX_RECURSION = 1024`
(`nestingDepth` counts the expansion calls along the deepest chain,
including the initial one); a chain within the budget never raises this
error.  Expansion is a total function of the fuel, so no unbounded call
stack is involved. -/
theorem C4_recursion_budget :
    ∀ (st : GenState) (self : Res) (regs : PreRegs),
      declOnlyList regs = true →
      (expand_registrations st self regs = .error .recursionLimit
        ↔ MAX_RECURSION < nestingDepth regs) := by
  intro st self regs h
  rw [expand_registrations]
  have hne : ¬ MAX_RECURSION = 0 := by decide
  rw [if_neg hne]
  constructor
  · intro herr
    by_contra hlt
    have hd : depthList regs ≤ MAX_RECURSION - 1 := by
      simp [nestingDepth, MAX_RECURSION] at hlt ⊢
      omega
    obtain ⟨out, hout⟩ := (expandList_declOnly regs (MAX_RECURSION - 1) st self h).2 hd
    rw [hout] at herr
    exact absurd herr (by simp)
  · intro hlt
    refine (expandList_declOnly regs (MAX_RECURSION - 1) st self h).1 ?_
    simp [nestingDepth, MAX_RECURSION] at hlt ⊢
    omega

theorem C4_recursion_budget_witness :
    declOnlyList (.cons .virtualReg .nil) = true ∧
    (expand_registrations Generator.new (0, exObjA) (.cons .virtualReg .nil)
        = .error .recursionLimit
      ↔ MAX_RECURSION < nestingDepth (.cons .virtualReg .nil)) :=
  ⟨by decide, C4_recursion_budget Generator.new (0, exObjA) _ (by decide)⟩
/-! ### Expansion produces only terminals (C10) -/

theorem add_dependency_err (st : GenState) (a b : Nat) (e : GenErr)
    (h : add_dependency st a b = .error e) : e = .cycle := by
  rw [add_dependency] at h
  split at h
  · rename_i e1 heq
    rw [dependOnEdges] at heq
    split at heq
    · cases heq
      cases h
      rfl
    · cases heq
  · cases h

mutual
theorem expandOne_out_terminal (r : PreReg) : ∀ (f : Nat) (st : GenState) (self : Res)
    (st' : GenState) (out : List RegOut),
    expandOne f st self r = .ok (st', out) → out.all isTerminalOut = true := by
  match r with
  | .delayed rs =>
    intro f st self st' out h
    by_cases hf : f = 0
    · simp [expandOne, hf] at h
    · rw [expandOne, if_neg hf] at h
      exact expandList_out_terminal rs (f - 1) st self st' out h
  | .dependUnique tag rs =>
    intro f st self st' out h
    by_cases hf : f = 0
    · simp [expandOne, hf] at h
    · rw [expandOne] at h
      simp only [if_neg hf] at h
      split at h
      · cases h
      · rename_i st2 out1 hE
        split at h
        · cases h
        · cases h
          exact expandList_out_terminal rs (f - 1) _ _ _ _ hE
  | .dependShared sid =>
    intro f st self st' out h
    rw [expandOne] at h
    split at h
    · cases h
    · cases h
      rfl
  | .concrete p =>
    intro f st self st' out h
    rw [expandOne] at h
    cases h
    rfl
  | .virtualReg =>
    intro f st self st' out h
    rw [expandOne] at h
    cases h
    rfl
theorem expandList_out_terminal (rs : PreRegs) : ∀ (g : Nat) (st : GenState) (self : Res)
    (st' : GenState) (out : List RegOut),
    expandList g st self rs = .ok (st', out) → out.all isTerminalOut = true := by
  match rs with
  | .nil =>
    intro g st self st' out h
    rw [expandList] at h
    cases h
    rfl
  | .cons r rs =>
    intro g st self st' out h
    rw [expandList] at h
    split at h
    · cases h
    · rename_i st1 out1 hE
      split at h
      · cases h
      · rename_i st2 out2 hL
        cases h
        simp only [List.all_append, Bool.and_eq_true]
        exact ⟨expandOne_out_terminal r g st self st1 out1 hE,
          expandList_out_terminal rs g st1 self _ _ hL⟩
end

mutual
theorem expandOne_err_class (r : PreReg) : ∀ (f : Nat) (st : GenState) (self : Res)
    (e : GenErr), expandOne f st self r = .error e →
    e = .recursionLimit ∨ e = .cycle := by
  match r with
  | .delayed rs =>
    intro f st self e h
    by_cases hf : f = 0
    · rw [expandOne, if_pos hf] at h
      cases h
      exact Or.inl rfl
    · rw [expandOne, if_neg hf] at h
      exact expandList_err_class rs (f - 1) st self e h
  | .dependUnique tag rs =>
    intro f st self e h
    by_cases hf : f = 0
    · rw [expandOne] at h
      simp only [if_pos hf] at h
      cases h
      exact Or.inl rfl
    · rw [expandOne] at h
      simp only [if_neg hf] at h
      split at h
      · rename_i e1 hE
        cases h
        exact expandList_err_class rs (f - 1) _ _ _ hE
      · rename_i st2 out1 hE
        split at h
        · rename_i e1 hD
          cases h
          exact Or.inr (add_dependency_err _ _ _ _ hD)
        · cases h
  | .dependShared sid =>
    intro f st self e h
    rw [expandOne] at h
    split at h
    · rename_i e1 hD
      cases h
      exact Or.inr (add_dependency_err _ _ _ _ hD)
    · cases h
  | .concrete p =>
    intro f st self e h
    rw [expandOne] at h
    cases h
  | .virtualReg =>
    intro f st self e h
    rw [expandOne] at h
    cases h
theorem expandList_err_class (rs : PreRegs) : ∀ (g : Nat) (st : GenState) (self : Res)
    (e : GenErr), expandList g st self rs = .error e →
    e = .recursionLimit ∨ e = .cycle := by
  match rs with
  | .nil =>
    intro g st self e h
    rw [expandList] at h
    cases h
  | .cons r rs =>
    intro g st self e h
    rw [expandList] at h
    split at h
    · rename_i e1 hE
      cases h
      exact expandOne_err_class r g st self _ hE
    · rename_i st1 out1 hE
      split at h
      · rename_i e1 hL
        cases h
        exact expandList_err_class rs g st1 self _ hL
      · cases h
end

theorem expand_registrations_eq (st : GenState) (self : Res) (regs : PreRegs) :
    expand_registrations st self regs = expandList (MAX_RECURSION - 1) st self regs := rfl

theorem drainLoop_out_terminal : ∀ (l : List Res) (st st' : GenState) (out : List RegOut),
    drainLoop l st = .ok (st', out) → out.all isTerminalOut = true := by
  intro l
  induction l with
  | nil =>
    intro st st' out h
    rw [drainLoop] at h
    cases h
    rfl
  | cons self rest ih =>
    intro st st' out h
    rw [drainLoop] at h
    split at h
    · cases h
    · rename_i st1 out1 hE
      split at h
      · cases h
      · rename_i st2 out2 hL
        cases h
        simp only [List.all_append, Bool.and_eq_true]
        rw [expand_registrations_eq] at hE
        exact ⟨expandList_out_terminal _ _ _ _ _ _ hE, ih st1 _ _ hL⟩

theorem drainLoop_err_class : ∀ (l : List Res) (st : GenState) (e : GenErr),
    drainLoop l st = .error e → e = .recursionLimit ∨ e = .cycle := by
  intro l
  induction l with
  | nil =>
    intro st e h
    rw [drainLoop] at h
    cases h
  | cons self rest ih =>
    intro st e h
    rw [drainLoop] at h
    split at h
    · rename_i e1 hE
      cases h
      rw [expand_registrations_eq] at hE
      exact expandList_err_class _ _ _ _ _ hE
    · rename_i st1 out1 hE
      split at h
      · rename_i e1 hL
        cases h
        exact ih st1 _ hL
      · cases h

theorem add_concrete_resource_err (eqF : Obj → Obj → Bool) (st : GenState)
    (rid : Nat) (obj : Obj) (p : GPath) (e : GenErr)
    (h : add_concrete_resource eqF st rid obj p = .error e) : e = .pathCollision p := by
  rw [add_concrete_resource] at h
  split at h
  · rename_i ex hmg
    split at h
    · cases h
      rfl
    · cases h
  · cases h

theorem registerConcretes_err_class (eqF : Obj → Obj → Bool) :
    ∀ (out : List RegOut) (st : GenState) (e : GenErr),
      out.all isTerminalOut = true → registerConcretes eqF out st = .error e →
      e ≠ .unexpectedNonterminal := by
  intro out
  induction out with
  | nil =>
    intro st e _ h
    rw [registerConcretes] at h
    cases h
  | cons r rest ih =>
    intro st e hall h
    rw [List.all_cons, Bool.and_eq_true] at hall
    match r with
    | .nonterminalOut => exact absurd hall.1 (by simp [isTerminalOut])
    | .virtualOut rid obj =>
      rw [registerConcretes] at h
      exact ih st e hall.2 h
    | .concreteOut rid obj p =>
      rw [registerConcretes] at h
      split at h
      · rename_i e1 hA
        cases h
        rw [add_concrete_resource_err eqF st rid obj p _ hA]
        simp
      · rename_i st1 hA
        exact ih st1 e hall.2 h

/-- C10: the list `Generator::expand_registrations` returns contains only
terminal registrations — every nonterminal variant is consumed during the
recursive expansion — and consequently `Generator::generate` can never
return the "unexpected nonterminal registration after expansion" error:
that branch is unreachable. -/
theorem C10_expansion_yields_terminals :
    (∀ (st : GenState) (self : Res) (regs : PreRegs) (st' : GenState) (out : List RegOut),
      expand_registrations st self regs = .ok (st', out) → out.all isTerminalOut = true) ∧
    (∀ (eqF : Obj → Obj → Bool) (st : GenState),
      Generator.generate eqF st ≠ .error .unexpectedNonterminal) := by
  constructor
  · intro st self regs st' out h
    rw [expand_registrations_eq] at h
    exact expandList_out_terminal _ _ _ _ _ _ h
  · intro eqF st h
    rw [Generator.generate] at h
    split at h
    · rename_i e hD
      cases h
      rcases drainLoop_err_class _ _ _ hD with h1 | h1 <;> cases h1
    · rename_i st1 terms hD
      split at h
      · rename_i e hR
        cases h
        exact registerConcretes_err_class eqF terms st1 _
          (drainLoop_out_terminal _ _ _ _ hD) hR rfl
      · cases h

theorem C10_expansion_yields_terminals_witness :
    ([RegOut.virtualOut 0 ⟨0, .cons .virtualReg .nil⟩] : List RegOut).all isTerminalOut
      = true ∧
    Generator.generate (fun _ _ => false) exStart ≠ .error .unexpectedNonterminal :=
  ⟨C10_expansion_yields_terminals.1 Generator.new (0, ⟨0, .cons .virtualReg .nil⟩)
      (.cons .virtualReg .nil) Generator.new _ rfl,
    C10_expansion_yields_terminals.2 (fun _ _ => false) exStart⟩
/-! ### The layer walk of the generation executor (C1) -/

theorem layersGo_flatten_subset (edges : List (Nat × Nat)) :
    ∀ (f : Nat) (rem done : List Nat) (x : Nat),
      x ∈ (layersGo edges f rem done).flatten → x ∈ rem := by
  intro f
  induction f with
  | zero =>
    intro rem done x h
    simp [layersGo] at h
  | succ f ih =>
    intro rem done x h
    simp only [layersGo] at h
    split at h
    · simp at h
    · rw [List.flatten_cons, List.mem_append] at h
      rcases h with h | h
      · exact (List.mem_filter.mp h).1
      · exact (List.mem_filter.mp (ih _ _ x h)).1

theorem contains_false_not_mem {l : List Nat} {a : Nat}
    (h : (!l.contains a) = true) : a ∉ l := by
  simpa using h

theorem layersGo_flatten_nodup (edges : List (Nat × Nat)) :
    ∀ (f : Nat) (rem done : List Nat), rem.Nodup →
      ((layersGo edges f rem done).flatten).Nodup := by
  intro f
  induction f with
  | zero =>
    intro rem done _
    simp [layersGo]
  | succ f ih =>
    intro rem done hnd
    simp only [layersGo]
    split
    · simp
    · rw [List.flatten_cons, List.nodup_append]
      refine ⟨hnd.filter _, ih _ _ (hnd.filter _), ?_⟩
      intro a ha hb
      have hnot := (List.mem_filter.mp (layersGo_flatten_subset edges f _ _ a hb)).2
      exact contains_false_not_mem hnot ha

theorem layersGo_sound (edges : List (Nat × Nat)) :
    ∀ (f : Nat) (rem done : List Nat) (k : Nat) (L : List Nat) (a : Nat),
      (layersGo edges f rem done)[k]? = some L → a ∈ L →
      ∀ b ∈ succs edges a,
        b ∈ done ∨ b ∈ ((layersGo edges f rem done).take k).flatten := by
  intro f
  induction f with
  | zero =>
    intro rem done k L a hk
    simp [layersGo] at hk
  | succ f ih =>
    intro rem done k L a hk ha b hb
    simp only [layersGo] at hk ⊢
    split at hk
    · simp at hk
    · rename_i hne
      match k with
      | 0 =>
        rw [List.getElem?_cons_zero] at hk
        have hL := Option.some.inj hk
        rw [← hL] at ha
        have := (List.mem_filter.mp ha).2
        rw [List.all_eq_true] at this
        have hc := this b hb
        simp at hc
        exact Or.inl hc
      | k + 1 =>
        rw [List.getElem?_cons_succ] at hk
        rw [if_neg hne]
        rcases ih _ _ k L a hk ha b hb with h | h
        · rw [List.mem_append] at h
          rcases h with h | h
          · exact Or.inl h
          · refine Or.inr ?_
            rw [List.take_succ_cons, List.flatten_cons, List.mem_append]
            exact Or.inl h
        · refine Or.inr ?_
          rw [List.take_succ_cons, List.flatten_cons, List.mem_append]
          exact Or.inr h

/-- C1 (amended): the trace of `generate()` invocations produced by
`Generator::generate` is the layer walk of the dependency graph followed by
one invocation per path-table entry; within the layer walk every graph node
is invoked at most once (the flattened layering has no duplicates) and only
after all of its dependency successors, which sit in strictly earlier
layers.  (The original claim's "exactly once per registered resource" fails:
a resource holding a path claim and appearing in the graph is invoked in
both passes, and a registered resource that is in neither — a virtual
resource with no edges — is never invoked; see the counterexample.) -/
theorem C1_generate_trace :
    (∀ (eqF : Obj → Obj → Bool) (st st' : GenState) (trace : List Nat),
      Generator.generate eqF st = .ok (st', trace) →
      trace = (topologicalLayers st'.edges).flatten
        ++ st'.concrete_resources.map (fun e => e.2.1)) ∧
    (∀ edges : List (Nat × Nat), ((topologicalLayers edges).flatten).Nodup) ∧
    (∀ (edges : List (Nat × Nat)) (k : Nat) (L : List Nat) (a : Nat),
      (topologicalLayers edges)[k]? = some L → a ∈ L →
      ∀ b ∈ succs edges a, b ∈ ((topologicalLayers edges).take k).flatten) := by
  refine ⟨?_, ?_, ?_⟩
  · intro eqF st st' trace h
    rw [Generator.generate] at h
    split at h
    · cases h
    · split at h
      · cases h
      · cases h
        rfl
  · intro edges
    exact layersGo_flatten_nodup edges _ _ [] (List.nodup_dedup _)
  · intro edges k L a hk ha b hb
    rcases layersGo_sound edges _ _ [] k L a hk ha b hb with h | h
    · simp at h
    · exact h

theorem C1_generate_trace_witness :
    ([1, 0, 0] : List Nat)
      = (topologicalLayers
          ({ registrations := [],
             resources := [(0, exDependent), (1, Obj.mk 1 PreRegs.nil)],
             next_dependency_id := 2,
             concrete_resources := [("out", (0, exDependent))],
             edges := [(0, 1)] } : GenState).edges).flatten
        ++ ({ registrations := [],
              resources := [(0, exDependent), (1, Obj.mk 1 PreRegs.nil)],
              next_dependency_id := 2,
              concrete_resources := [("out", (0, exDependent))],
              edges := [(0, 1)] } : GenState).concrete_resources.map (fun e => e.2.1) ∧
    (1 : Nat) ∈ ((topologicalLayers [(0, 1)]).take 1).flatten := by
  constructor
  · exact C1_generate_trace.1 (fun _ _ => false) exStart _ [1, 0, 0] rfl
  · exact C1_generate_trace.2.2 [(0, 1)] 1 [0] 0 rfl (by decide) 1 (by decide)

/-- C1 counterexample: `generate()` is not invoked exactly once per
registered resource.  In the build `exStart` the resource 0 declares a
unique sub-resource (so it enters the dependency graph) and claims the
concrete path `out` (so it enters the path table): its `generate()` runs
twice — once in the layer walk, once in the concrete pass (the full trace
is `[1, 0, 0]`).  And a resource registering only a `Virtual` terminal with
no edges is invoked zero times. -/
theorem C1_counterexample :
    (Generator.generate (fun _ _ => false) exStart).toOption.map (fun r => r.2.count 0)
      = some 2 ∧
    (Generator.generate (fun _ _ => false)
        (Generator.require Generator.new (Obj.mk 0 (PreRegs.cons PreReg.virtualReg PreRegs.nil))).1).toOption.map
        (fun r => r.2.count 0) = some 0 := by
  exact ⟨rfl, rfl⟩
/-! ### The root sentinel (C9, modelled from the spec) -/

theorem C9_root_sentinel :
    (mapGet 0 RootSpec.RGen.new.resources = some RootSpec.rootObj ∧
      succs RootSpec.RGen.new.edges 0 = [] ∧
      RootSpec.RGen.layers RootSpec.RGen.new = [[0]]) ∧
    (∀ st : RootSpec.RGen, 0 ∈ st.allNodes → (∀ e ∈ st.edges, e.1 ≠ 0) →
      succs st.edges 0 = [] ∧ 0 ∈ (RootSpec.RGen.layers st).headD []) ∧
    (∀ (st : RootSpec.RGen) (selfId : Nat) (st' : RootSpec.RGen),
      RootSpec.RGen.requireRoot st selfId = .ok st' →
      st'.edges = insertEdge (selfId, 0) st.edges ∧ st'.resources = st.resources) := by
  refine ⟨⟨rfl, rfl, rfl⟩, ?_, ?_⟩
  · intro st h0 hsrc
    have hsuccs : succs st.edges 0 = [] := by
      rw [succs]
      have : st.edges.filter (fun e => e.1 == 0) = [] := by
        rw [List.filter_eq_nil_iff]
        intro e he
        simpa using hsrc e he
      rw [this]
      rfl
    refine ⟨hsuccs, ?_⟩
    rw [RootSpec.RGen.layers]
    simp only [layersGo]
    have hready : 0 ∈ st.allNodes.filter
        (fun n => (succs st.edges n).all (fun d => ([] : List Nat).contains d)) := by
      rw [List.mem_filter]
      refine ⟨h0, ?_⟩
      rw [hsuccs]
      rfl
    have hne : ¬ (st.allNodes.filter
        (fun n => (succs st.edges n).all (fun d => ([] : List Nat).contains d))).isEmpty
          = true := by
      intro hempty
      rw [List.isEmpty_iff] at hempty
      rw [hempty] at hready
      simp at hready
    rw [if_neg hne]
    simpa using hready
  · intro st selfId st' h
    rw [RootSpec.RGen.requireRoot] at h
    split at h
    · cases h
    · rename_i es hdep
      cases h
      rw [dependOnEdges] at hdep
      split at hdep
      · cases hdep
      · cases hdep
        exact ⟨rfl, rfl⟩

theorem C9_root_sentinel_witness :
    (succs RootSpec.RGen.new.edges 0 = [] ∧
      0 ∈ (RootSpec.RGen.layers RootSpec.RGen.new).headD []) ∧
    ({ RootSpec.RGen.new with edges := [(1, 0)] } : RootSpec.RGen).edges
        = insertEdge (1, 0) RootSpec.RGen.new.edges ∧
    ({ RootSpec.RGen.new with edges := [(1, 0)] } : RootSpec.RGen).resources
        = RootSpec.RGen.new.resources := by
  refine ⟨?_, ?_⟩
  · exact C9_root_sentinel.2.1 RootSpec.RGen.new (by decide)
      (fun e he => absurd he (by simp [RootSpec.RGen.new]))
  · exact C9_root_sentinel.2.2 RootSpec.RGen.new 1 _ rfl

end Blanket

namespace Cache

open Blanket

/-! ### Lemmas on the cache path encoding -/

theorem extB3_data (c : String) : (extB3 c).data = c.data ++ ".blake3".data :=
  String.data_append c ".blake3"

theorem dropB3_extB3 (c : String) : dropB3 (extB3 c) = c := by
  rw [dropB3]
  have hd : (extB3 c).data = c.data ++ ".blake3".data := extB3_data c
  have hlen : (extB3 c).data.length - 7 = c.data.length := by
    rw [hd, List.length_append]
    rfl
  rw [hlen, hd]
  have : List.take c.data.length (c.data ++ ".blake3".data) = c.data :=
    List.take_left c.data ".blake3".data
  rw [this]

theorem extB3_inj {c1 c2 : String} (h : extB3 c1 = extB3 c2) : c1 = c2 := by
  have hd : c1.data ++ ".blake3".data = c2.data ++ ".blake3".data := by
    rw [← extB3_data, ← extB3_data, h]
  have := List.append_cancel_right hd
  cases c1
  cases c2
  simp only at this
  rw [this]

theorem hasB3Ext_extB3 {c : String} (hc : c.data ≠ []) : hasB3Ext (extB3 c) = true := by
  rw [hasB3Ext, Bool.and_eq_true]
  constructor
  · rw [List.isSuffixOf_iff_suffix, extB3_data]
    exact List.suffix_append c.data ".blake3".data
  · rw [extB3_data, List.length_append]
    simp only [decide_eq_true_eq]
    show 7 < c.data.length + 7
    have : 0 < c.data.length := List.length_pos.mpr hc
    omega

theorem appendExtHash_concat : ∀ (xs : CPath) (c : String),
    appendExtHash (xs ++ [c]) = xs ++ [extB3 c]
  | [], _ => rfl
  | [_], _ => rfl
  | x :: y :: ys, c => by
    show x :: appendExtHash ((y :: ys) ++ [c]) = x :: ((y :: ys) ++ [extB3 c])
    rw [appendExtHash_concat (y :: ys) c]

theorem stripExtHash_concat : ∀ (xs : CPath) (c : String),
    stripExtHash (xs ++ [c]) = xs ++ [dropB3 c]
  | [], _ => rfl
  | [_], _ => rfl
  | x :: y :: ys, c => by
    show x :: stripExtHash ((y :: ys) ++ [c]) = x :: ((y :: ys) ++ [dropB3 c])
    rw [stripExtHash_concat (y :: ys) c]

theorem target_location_eq (cache key : CPath) :
    target_location cache key = (cache ++ key) ++ [extB3 "target"] := by
  rw [target_location, ← appendExtHash_concat]

theorem dep_location_concat (cache key : CPath) (d0 : CPath) (c : String) :
    dep_location cache key (d0 ++ [c]) = (dep_dir cache key ++ d0) ++ [extB3 c] := by
  rw [dep_location, ← appendExtHash_concat, List.append_assoc]

theorem target_location_length (cache key : CPath) :
    (target_location cache key).length = (cache ++ key).length + 1 := by
  rw [target_location_eq, List.length_append]
  rfl

theorem dep_location_ne_target (cache key : CPath) {d : CPath} (h : depWF d = true) :
    dep_location cache key d ≠ target_location cache key := by
  rcases List.eq_nil_or_concat d with rfl | ⟨d0, c, rfl⟩
  · rw [depWF] at h
    simp at h
  · rw [List.concat_eq_append, dep_location_concat]
    intro heq
    have hlen := congrArg List.length heq
    rw [List.length_append, target_location_length, List.length_append,
      List.length_append, dep_dir, List.length_append] at hlen
    simp at hlen
    omega

theorem depWF_concat {d0 : CPath} {c : String} (h : depWF (d0 ++ [c]) = true) :
    c.data ≠ [] := by
  rw [depWF, List.getLast?_concat] at h
  simp only [Bool.not_eq_true'] at h
  intro hc
  rw [hc] at h
  exact absurd h (by simp)

theorem isDepFile_dep_location (cache key : CPath) {d : CPath} (h : depWF d = true) :
    isDepFile cache key (dep_location cache key d) = true := by
  rcases List.eq_nil_or_concat d with rfl | ⟨d0, c, rfl⟩
  · rw [depWF] at h
    simp at h
  · rw [List.concat_eq_append] at h ⊢
    have hc : c.data ≠ [] := depWF_concat h
    rw [dep_location_concat, isDepFile]
    have h1 : (dep_dir cache key).isPrefixOf ((dep_dir cache key ++ d0) ++ [extB3 c])
        = true := by
      rw [List.isPrefixOf_iff_prefix, List.append_assoc]
      exact List.prefix_append _ _
    have h2 : (dep_dir cache key).length < ((dep_dir cache key ++ d0) ++ [extB3 c]).length := by
      rw [List.length_append, List.length_append]
      simp only [List.length_singleton]
      omega
    have h3 : ((dep_dir cache key ++ d0) ++ [extB3 c]).getLast? = some (extB3 c) :=
      List.getLast?_concat _
    simp only [h1, h3, decide_eq_true h2, Bool.true_and]
    exact hasB3Ext_extB3 hc

theorem isDepFile_target (cache key : CPath) :
    ¬ isDepFile cache key (target_location cache key) = true := by
  intro h
  rw [isDepFile, Bool.and_eq_true, Bool.and_eq_true] at h
  have hlen := h.1.2
  rw [decide_eq_true_eq, target_location_length, dep_dir, List.length_append] at hlen
  simp at hlen

theorem depFromLocation_dep_location (cache key : CPath) {d : CPath}
    (h : depWF d = true) :
    depFromLocation cache key (dep_location cache key d) = d := by
  rcases List.eq_nil_or_concat d with rfl | ⟨d0, c, rfl⟩
  · rw [depWF] at h
    simp at h
  · rw [List.concat_eq_append, depFromLocation, dep_location_concat, List.append_assoc,
      List.drop_left, stripExtHash_concat, dropB3_extB3]

theorem dep_location_inj (cache key : CPath) {d1 d2 : CPath}
    (h1 : depWF d1 = true) (h2 : depWF d2 = true)
    (h : dep_location cache key d1 = dep_location cache key d2) : d1 = d2 := by
  have := congrArg (depFromLocation cache key) h
  rwa [depFromLocation_dep_location cache key h1,
    depFromLocation_dep_location cache key h2] at this

/-! ### Lemmas on `set` and `get` -/

theorem mapGet_setDeps_ne (cache key : CPath) :
    ∀ (deps : List (CPath × Nat)) (fs : CFs) (q : CPath),
      (∀ e ∈ deps, dep_location cache key e.1 ≠ q) →
      mapGet q (setDeps cache key deps fs) = mapGet q fs := by
  intro deps
  induction deps with
  | nil => intro fs q _; rfl
  | cons e rest ih =>
    intro fs q hq
    obtain ⟨d, hd⟩ := e
    rw [setDeps, ih _ q (fun e he => hq e (List.mem_cons_of_mem _ he)),
      mapGet_insert_ne _ _ (fun hh => hq (d, hd) (List.mem_cons_self _ _) hh.symm)]

theorem mapGet_setDeps_hit (cache key : CPath) :
    ∀ (deps : List (CPath × Nat)) (fs : CFs) (d : CPath) (hd : Nat),
      (deps.map (fun e => dep_location cache key e.1)).Nodup →
      (d, hd) ∈ deps →
      mapGet (dep_location cache key d) (setDeps cache key deps fs)
        = some (.readable (.hashContent hd)) := by
  intro deps
  induction deps with
  | nil =>
    intro fs d hd _ hmem
    cases hmem
  | cons e rest ih =>
    intro fs d hd hnd hmem
    obtain ⟨d', hd'⟩ := e
    rw [List.map_cons, List.nodup_cons] at hnd
    rcases List.mem_cons.mp hmem with heq | hmem'
    · cases heq
      rw [setDeps, mapGet_setDeps_ne cache key rest _ _ ?hne, mapGet_insert_self]
      case hne =>
        intro e he hc
        exact hnd.1 (hc ▸ List.mem_map_of_mem _ he)
    · rw [setDeps]
      exact ih _ d hd hnd.2 hmem'

theorem keysOf_setDeps (cache key : CPath) :
    ∀ (deps : List (CPath × Nat)) (fs : CFs),
      (∀ e ∈ deps, dep_location cache key e.1 ∉ keysOf fs) →
      (deps.map (fun e => dep_location cache key e.1)).Nodup →
      keysOf (setDeps cache key deps fs)
        = keysOf fs ++ deps.map (fun e => dep_location cache key e.1) := by
  intro deps
  induction deps with
  | nil => intro fs _ _; simp [setDeps]
  | cons e rest ih =>
    intro fs hfresh hnd
    obtain ⟨d, hd⟩ := e
    rw [List.map_cons, List.nodup_cons] at hnd
    rw [setDeps, ih _ ?fresh hnd.2]
    case fresh =>
      intro e he
      rw [keysOf_insert_of_not_mem _ (hfresh (d, hd) (List.mem_cons_self _ _))]
      intro hmem
      rcases List.mem_append.mp hmem with hmem | hmem
      · exact hfresh e (List.mem_cons_of_mem _ he) hmem
      · rcases List.mem_singleton.mp hmem with heq
        exact hnd.1 (heq ▸ List.mem_map_of_mem _ he)
    rw [keysOf_insert_of_not_mem _ (hfresh (d, hd) (List.mem_cons_self _ _)), List.map_cons,
      List.append_assoc]
    rfl

theorem readDeps_spec (cache key : CPath) (fs : CFs) :
    ∀ (deps : List (CPath × Nat)),
      (∀ d hd, (d, hd) ∈ deps →
        mapGet (dep_location cache key d) fs = some (.readable (.hashContent hd))) →
      (∀ e ∈ deps, depWF e.1 = true) →
      readDeps cache key fs (deps.map (fun e => dep_location cache key e.1))
        = some deps := by
  intro deps
  induction deps with
  | nil => intro _ _; rfl
  | cons e rest ih =>
    intro hhit hwf
    obtain ⟨d, hd⟩ := e
    rw [List.map_cons, readDeps, hhit d hd (List.mem_cons_self _ _),
      ih (fun d' hd' h => hhit d' hd' (List.mem_cons_of_mem _ h))
        (fun e he => hwf e (List.mem_cons_of_mem _ he)),
      depFromLocation_dep_location cache key (hwf (d, hd) (List.mem_cons_self _ _))]

theorem readDeps_none_of_unreadable (cache key : CPath) (fs : CFs) :
    ∀ (files : List CPath) (p : CPath), p ∈ files →
      mapGet p fs = some .unreadable → readDeps cache key fs files = none := by
  intro files
  induction files with
  | nil =>
    intro p hp
    cases hp
  | cons q rest ih =>
    intro p hp hbad
    rcases List.mem_cons.mp hp with rfl | hp'
    · rw [readDeps, hbad]
    · rw [readDeps]
      match hq : mapGet q fs with
      | some (.readable (.hashContent hd)) =>
        rw [ih p hp' hbad]
      | some (.readable .garbage) => rfl
      | some .unreadable => rfl
      | none => rfl
/-! ### The cache round trip (C6) and failure reporting (C7) -/

/-- C6 (amended): `set(k, h, m)` followed by `get(k)` returns `(h, m)`
exactly — same hash, same dependency mapping, nothing added or dropped —
*provided* the filesystem holds no hash file under the key's dependency
directory beforehand (a fresh key).  The original unconditional claim is
false: `FsCache::set` never clears previously recorded dependency files, so
after a prior `set` with a larger dependency map, `get` also returns the
stale entries (see the counterexample).  Hypotheses: the mapping's keys are
distinct and each dependency path ends in a nonempty component. -/
theorem C6_fresh_roundtrip :
    ∀ (cache : CPath) (fs : CFs) (key : CPath) (h : Nat) (deps : List (CPath × Nat)),
      (∀ q ∈ keysOf fs, ¬ isDepFile cache key q = true) →
      (deps.map (fun e => e.1)).Nodup →
      (∀ e ∈ deps, depWF e.1 = true) →
      FsCache.get cache (FsCache.set cache fs key h deps) key = some (h, deps) := by
  intro cache fs key h deps hfresh hnd hwf
  have hwf' : ∀ d ∈ deps.map (fun e => e.1), depWF d = true := by
    intro d hd
    obtain ⟨e, he, rfl⟩ := List.mem_map.mp hd
    exact hwf e he
  have hlocnd : (deps.map (fun e => dep_location cache key e.1)).Nodup := by
    have hmm : deps.map (fun e => dep_location cache key e.1)
        = (deps.map (fun e => e.1)).map (dep_location cache key) := by
      rw [List.map_map]
      rfl
    rw [hmm]
    refine hnd.map_on ?_
    intro x hx y hy hxy
    exact dep_location_inj cache key (hwf' x hx) (hwf' y hy) hxy
  have hLocNeTarget : ∀ e ∈ deps, dep_location cache key e.1 ≠ target_location cache key :=
    fun e he => dep_location_ne_target cache key (hwf e he)
  have hLocNotFs : ∀ e ∈ deps, dep_location cache key e.1 ∉ keysOf fs := by
    intro e he hmem
    exact hfresh _ hmem (isDepFile_dep_location cache key (hwf e he))
  have hSet : FsCache.set cache fs key h deps
      = setDeps cache key deps
          (mapInsert (target_location cache key) (.readable (.hashContent h)) fs) := rfl
  have hkeysfs1 : ∀ q,
      q ∈ keysOf (mapInsert (target_location cache key) (.readable (.hashContent h)) fs) →
      q ∈ keysOf fs ∨ q = target_location cache key := by
    intro q hq
    by_cases hm : target_location cache key ∈ keysOf fs
    · rw [keysOf_insert_of_mem _ hm] at hq
      exact Or.inl hq
    · rw [keysOf_insert_of_not_mem _ hm] at hq
      rcases List.mem_append.mp hq with hq | hq
      · exact Or.inl hq
      · exact Or.inr (List.mem_singleton.mp hq)
  have hLocNotFs1 : ∀ e ∈ deps, dep_location cache key e.1
      ∉ keysOf (mapInsert (target_location cache key) (.readable (.hashContent h)) fs) := by
    intro e he hmem
    rcases hkeysfs1 _ hmem with hmem | hmem
    · exact hLocNotFs e he hmem
    · exact hLocNeTarget e he hmem
  have htget : mapGet (target_location cache key)
      (setDeps cache key deps
        (mapInsert (target_location cache key) (.readable (.hashContent h)) fs))
      = some (.readable (.hashContent h)) := by
    rw [mapGet_setDeps_ne cache key deps _ _ hLocNeTarget, mapGet_insert_self]
  have hkeys : keysOf (setDeps cache key deps
        (mapInsert (target_location cache key) (.readable (.hashContent h)) fs))
      = keysOf (mapInsert (target_location cache key) (.readable (.hashContent h)) fs)
        ++ deps.map (fun e => dep_location cache key e.1) :=
    keysOf_setDeps cache key deps _ hLocNotFs1 hlocnd
  have hfilter : ((setDeps cache key deps
        (mapInsert (target_location cache key) (.readable (.hashContent h)) fs)).map
          (fun x => x.1)).filter (isDepFile cache key)
      = deps.map (fun e => dep_location cache key e.1) := by
    show (keysOf (setDeps cache key deps
        (mapInsert (target_location cache key) (.readable (.hashContent h)) fs))).filter
          (isDepFile cache key) = _
    rw [hkeys, List.filter_append]
    have h1 : (keysOf (mapInsert (target_location cache key)
        (.readable (.hashContent h)) fs)).filter (isDepFile cache key) = [] := by
      rw [List.filter_eq_nil_iff]
      intro q hq
      rcases hkeysfs1 q hq with hm | rfl
      · exact hfresh q hm
      · exact isDepFile_target cache key
    have h2 : (deps.map (fun e => dep_location cache key e.1)).filter (isDepFile cache key)
        = deps.map (fun e => dep_location cache key e.1) := by
      rw [List.filter_eq_self]
      intro q hq
      obtain ⟨e, he, rfl⟩ := List.mem_map.mp hq
      exact isDepFile_dep_location cache key (hwf e he)
    rw [h1, h2, List.nil_append]
  have hread : readDeps cache key
      (setDeps cache key deps
        (mapInsert (target_location cache key) (.readable (.hashContent h)) fs))
      (deps.map (fun e => dep_location cache key e.1)) = some deps :=
    readDeps_spec cache key _ deps
      (fun d hd hm => mapGet_setDeps_hit cache key deps _ d hd hlocnd hm) hwf
  rw [hSet]
  simp only [FsCache.get, htget, hfilter, hread]

theorem C6_fresh_roundtrip_witness :
    FsCache.get [] (FsCache.set [] [] ["k"] 1 [(["d"], 5)]) ["k"]
      = some (1, [(["d"], 5)]) :=
  C6_fresh_roundtrip [] [] ["k"] 1 [(["d"], 5)]
    (fun q hq => absurd hq (by simp [keysOf]))
    (by simp)
    (by decide)

/-- C6 counterexample: the round trip is not exact in general.  After
`set(k, 1, {d: 5})` followed by `set(k, 2, {})`, the call `get(k)` returns
`(2, {d: 5})` — the stale dependency record written by the first `set`
survives the second, because `FsCache::set` only writes the new record's
files and never clears the key's dependency directory, so the result is
not the `(2, {})` that the claim requires. -/
theorem C6_counterexample :
    FsCache.get [] (FsCache.set [] (FsCache.set [] [] ["k"] 1 [(["d"], 5)]) ["k"] 2 []) ["k"]
      = some (2, [(["d"], 5)]) ∧
    decide (some ((2 : Nat), [((["d"] : CPath), (5 : Nat))])
      = some ((2 : Nat), ([] : List (CPath × Nat)))) = false := by
  exact ⟨by decide, by decide⟩

/-- C7 (amended): persistence-layer failures in the cache are not reported
to the caller as errors at all — `FsCache::get` has no error channel and
silently converts every failure into `None`, the "never cached" result:
an unreadable target record, an unparseable target record, and an
unreadable dependency hash file each make `get` return `None` (the
source's `.ok()?`); nothing is retried.  (A failed write in `FsCache::set`
aborts the process via `expect` rather than returning an error; writes are
modelled as succeeding.)  The original claim — that such failures surface
as a `CacheIOError` and are not converted into a never-cached result — is
refuted by the counterexample. -/
theorem C7_failures_swallowed :
    (∀ (cache : CPath) (fs : CFs) (key : CPath),
      mapGet (target_location cache key) fs = some .unreadable →
      FsCache.get cache fs key = none) ∧
    (∀ (cache : CPath) (fs : CFs) (key : CPath),
      mapGet (target_location cache key) fs = some (.readable .garbage) →
      FsCache.get cache fs key = none) ∧
    (∀ (cache : CPath) (fs : CFs) (key : CPath) (p : CPath),
      p ∈ (fs.map (fun x => x.1)).filter (isDepFile cache key) →
      mapGet p fs = some .unreadable →
      FsCache.get cache fs key = none) := by
  refine ⟨?_, ?_, ?_⟩
  · intro cache fs key h
    simp only [FsCache.get, h]
  · intro cache fs key h
    simp only [FsCache.get, h]
  · intro cache fs key p hp hbad
    match htget : mapGet (target_location cache key) fs with
    | some (.readable (.hashContent hh)) =>
      simp only [FsCache.get, htget,
        readDeps_none_of_unreadable cache key fs _ p hp hbad]
    | some (.readable .garbage) => simp only [FsCache.get, htget]
    | some .unreadable => simp only [FsCache.get, htget]
    | none => simp only [FsCache.get, htget]

theorem C7_failures_swallowed_witness :
    FsCache.get [] [(target_location [] ["k"], .unreadable)] ["k"] = none ∧
    FsCache.get [] [(target_location [] ["k"], .readable .garbage)] ["k"] = none ∧
    FsCache.get [] [(target_location [] ["k"], .readable (.hashContent 1)),
        (dep_location [] ["k"] ["d"], .unreadable)] ["k"] = none := by
  refine ⟨?_, ?_, ?_⟩
  · exact C7_failures_swallowed.1 [] _ ["k"] rfl
  · exact C7_failures_swallowed.2.1 [] _ ["k"] rfl
  · exact C7_failures_swallowed.2.2 [] _ ["k"] (dep_location [] ["k"] ["d"])
      (by decide) (by decide)

/-- C7 counterexample: a filesystem whose record for key `k` is unreadable
makes `get` return `None` — the "never cached" answer — rather than any
error value; indeed the return type of `FsCache::get` (an `Option` with no
error constructor) cannot report a `CacheIOError` at all. -/
theorem C7_counterexample :
    FsCache.get [] [(target_location [] ["k"], .unreadable)] ["k"] = none := rfl

end Cache
